import Mathlib

/-!
Verification of the quoted-delimiter line tokenizer family from
`src/utils.cpp` (`newsboat::utils`): `append_escapes`,
`extract_token_quoted`, `tokenize_quoted`, `tokenize`, `tokenize_spaced`
and `tokenize_nl`.

Strings are modelled as `List Char`; `std::string::size_type` positions are
modelled as `Option Nat`, with `none` standing for `std::string::npos`.
The index-driven `while` loops of the C++ are modelled as fuel-indexed
recursions; a fuel of `s.length + 1` is enough because the scan position
strictly increases on every iteration (this is proved where needed).
-/

namespace Newsboat

/-- `str.find_first_not_of(delims, pos)` / `find_first_of(delims, pos)` both
instantiate this: the least index `j ≥ pos` with `p s[j] = true`, `none` if
there is no such index (`npos`).  A `none` start position yields `none`,
matching the C++ behaviour for `pos ≥ str.size()`. -/
def findCharFrom (p : Char → Bool) (s : List Char) : Option Nat → Option Nat
  | none => none
  | some i => ((s.drop i).findIdx? p).map (fun j => i + j)

/-- `str.find_first_not_of(delimiters, pos)` from the source. -/
def find_first_not_of (s d : List Char) (pos : Option Nat) : Option Nat :=
  findCharFrom (fun c => !(d.contains c)) s pos

/-- `str.find_first_of(delimiters, pos)` from the source. -/
def find_first_of (s d : List Char) (pos : Option Nat) : Option Nat :=
  findCharFrom (fun c => d.contains c) s pos

/-- `str.substr(lo, hi - lo)` where `hi` may be `npos` (`none`): with `hi`
equal to `npos` the count `npos - lo` exceeds the remaining length, so the
substring extends to the end of the string. -/
def substrFromTo (s : List Char) (lo : Nat) (hi : Option Nat) : List Char :=
  match hi with
  | none => s.drop lo
  | some h => (s.drop lo).take (h - lo)

/-- Strict `<` on `std::string::size_type` values, where `none` models
`npos`, the largest value. -/
def npos_lt : Option Nat → Option Nat → Bool
  | none, _ => false
  | some _, none => true
  | some x, some y => decide (x < y)

/-- `utils::append_escapes` (utils.cpp lines 54-81): appends the expansion
of the escape character `c` to the accumulator `str`.  The `switch` is
translated case for case; escaped backticks are re-emitted still escaped. -/
def append_escapes (str : List Char) (c : Char) : List Char :=
  if c = 'n' then str ++ ['\n']
  else if c = 'r' then str ++ ['\r']
  else if c = 't' then str ++ ['\t']
  else if c = '\"' then str ++ ['\"']
  else if c = '`' then str ++ ['\\', '`']
  else if c = '\\' then str ++ ['\\']
  else str ++ [c]

/-- The quoted-mode scanning loop of `utils::extract_token_quoted`
(utils.cpp lines 143-159): starting just after the opening quote, copy
characters into `token` until an unescaped closing quote or the end of the
input; a backslash consumes the following character (if any) and appends
its `append_escapes` expansion.  Returns the token together with the
characters remaining after the consumed part (`str.substr(pos)`). -/
def quoted_scan : List Char → List Char → List Char × List Char
  | token, [] => (token, [])
  | token, c :: rest =>
    if c = '\"' then (token, rest)
    else if c = '\\' then
      match rest with
      | [] => (token, [])
      | e :: rest2 => quoted_scan (append_escapes token e) rest2
    else quoted_scan (token ++ [c]) rest

/-- `utils::extract_token_quoted` (utils.cpp lines 126-172), written in the
pure style (token, new cursor) instead of mutating the cursor in place.
`find_first_not_of(delimiters, 0)` followed by `substr(first_non_delimiter)`
is the skip of the leading delimiter run, i.e. a `dropWhile`; the branches
then mirror the source: comment marker, quoted token, plain token. -/
def extract_token_quoted (s d : List Char) : Option (List Char) × List Char :=
  match s.dropWhile (fun c => d.contains c) with
  | [] => (none, [])
  | c :: rest =>
    if c = '#' then (none, [])
    else if c = '\"' then
      let scanned := quoted_scan [] rest
      (some scanned.1, scanned.2)
    else
      match (c :: rest).findIdx? (fun ch => d.contains ch) with
      | none => (some (c :: rest), [])
      | some e => (some ((c :: rest).take e), (c :: rest).drop e)

/-- The `while (!remaining.empty())` loop of `utils::tokenize_quoted`
(utils.cpp lines 116-121), with explicit fuel.  Each call of the extractor
on a non-empty cursor strictly shortens it (proved below), so a fuel of
`initial cursor length + 1` makes this the exact loop. -/
def tokenize_quoted_loop (d : List Char) : Nat → List Char → List (List Char)
  | 0, _ => []
  | fuel + 1, remaining =>
    if remaining = [] then []
    else
      match extract_token_quoted remaining d with
      | (some tok, rest) => tok :: tokenize_quoted_loop d fuel rest
      | (none, rest) => tokenize_quoted_loop d fuel rest

/-- `utils::tokenize_quoted` (utils.cpp lines 89-124). -/
def tokenize_quoted (s d : List Char) : List (List Char) :=
  tokenize_quoted_loop d (s.length + 1) s

/-- The `while` loop of `utils::tokenize` (utils.cpp lines 184-188).
The loop runs while `pos != npos || last_pos != npos`; `pos` is always the
value `find_first_of(delimiters, last_pos)`, so `last_pos = npos` forces
`pos = npos` and the `none` branch below is never reached from
`tokenize`. -/
def tokenizeLoop (s d : List Char) : Nat → Option Nat → Option Nat → List (List Char)
  | 0, _, _ => []
  | fuel + 1, last_pos, pos =>
    if last_pos = none ∧ pos = none then []
    else
      match last_pos with
      | none => []
      | some lp =>
        substrFromTo s lp pos ::
          (let lastPos2 := find_first_not_of s d pos
           tokenizeLoop s d fuel lastPos2 (find_first_of s d lastPos2))

/-- `utils::tokenize` (utils.cpp lines 174-190): plain delimiter split. -/
def tokenize (s d : List Char) : List (List Char) :=
  let last_pos := find_first_not_of s d (some 0)
  tokenizeLoop s d (s.length + 1) last_pos (find_first_of s d last_pos)

/-- The `while` loop of `utils::tokenize_spaced` (utils.cpp lines 203-210):
like `tokenizeLoop`, but after advancing `last_pos` past the delimiter run
the run itself is pushed as a token when `last_pos > pos` (comparison in
`size_type`, where `npos` is the largest value). -/
def spacedLoop (s d : List Char) : Nat → Option Nat → Option Nat → List (List Char)
  | 0, _, _ => []
  | fuel + 1, last_pos, pos =>
    if last_pos = none ∧ pos = none then []
    else
      match last_pos with
      | none => []
      | some lp =>
        let tok := substrFromTo s lp pos
        let lastPos2 := find_first_not_of s d pos
        let extra :=
          match pos with
          | none => []
          | some p => if npos_lt (some p) lastPos2 then [substrFromTo s p lastPos2] else []
        tok :: (extra ++ spacedLoop s d fuel lastPos2 (find_first_of s d lastPos2))

/-- `utils::tokenize_spaced` (utils.cpp lines 192-213): the leading
`if (last_pos != 0)` push of `str.substr(0, last_pos)` followed by the
loop. -/
def tokenize_spaced (s d : List Char) : List (List Char) :=
  let last_pos := find_first_not_of s d (some 0)
  let pos := find_first_of s d last_pos
  (if last_pos ≠ some 0 then [substrFromTo s 0 last_pos] else []) ++
    spacedLoop s d (s.length + 1) last_pos pos

/-- The `while` loop of `utils::tokenize_nl` (utils.cpp lines 242-257):
after each non-delimiter token, one `"\n"` token per character of the
following delimiter run — but only when both `last_pos` and `pos` are not
`npos`, so a trailing delimiter run emits nothing. -/
def nlLoop (s d : List Char) : Nat → Option Nat → Option Nat → List (List Char)
  | 0, _, _ => []
  | fuel + 1, last_pos, pos =>
    if last_pos = none ∧ pos = none then []
    else
      match last_pos with
      | none => []
      | some lp =>
        let tok := substrFromTo s lp pos
        let lastPos2 := find_first_not_of s d pos
        let nls : List (List Char) :=
          match pos, lastPos2 with
          | some p, some l2 => List.replicate (l2 - p) ['\n']
          | _, _ => []
        tok :: (nls ++ nlLoop s d fuel lastPos2 (find_first_of s d lastPos2))

/-- `utils::tokenize_nl` (utils.cpp lines 221-260): the leading loop pushes
one `"\n"` per character of the leading delimiter run (`last_pos` many when
`last_pos != npos`, otherwise `str.length()` many), then the main loop. -/
def tokenize_nl (s d : List Char) : List (List Char) :=
  let last_pos := find_first_not_of s d (some 0)
  let pos := find_first_of s d last_pos
  let leading : List (List Char) :=
    match last_pos with
    | some lp => List.replicate lp ['\n']
    | none => List.replicate s.length ['\n']
  leading ++ nlLoop s d (s.length + 1) last_pos pos

/-! ### Spec-side reference definitions

These follow the words of the specification, to be compared with the
definitions above, which are translated from the source. -/

/-- Spec-side description of the Plain Tokenizer (§4.4): split on maximal
runs of delimiter characters; leading, trailing and repeated delimiters
produce no empty tokens. -/
def spec_split (d : List Char) : List Char → List (List Char)
  | [] => []
  | c :: r =>
    if d.contains c then spec_split d r
    else
      (c :: r.takeWhile (fun x => !(d.contains x))) ::
        spec_split d (r.dropWhile (fun x => !(d.contains x)))
termination_by xs => xs.length
decreasing_by
  · simp
  · simp only [List.length_cons, Nat.lt_succ_iff]
    exact (List.dropWhile_sublist _).length_le

/-- Spec-side (§4.2/§7): the scan of a quoted-token body reaches the end of
the input without ever meeting an unescaped closing double quote. -/
def unterminated : List Char → Bool
  | [] => true
  | c :: rest =>
    if c = '\"' then false
    else if c = '\\' then
      match rest with
      | [] => true
      | _ :: rest2 => unterminated rest2
    else unterminated rest

/-- Spec-side (§4.2 step 3): the escape-resolved content of a quoted-token
body — every backslash consumes the following character (if any) and
contributes its Escape-Resolver expansion, every other character is copied
verbatim. -/
def spec_resolve_escapes : List Char → List Char
  | [] => []
  | c :: rest =>
    if c = '\\' then
      match rest with
      | [] => []
      | e :: rest2 => append_escapes [] e ++ spec_resolve_escapes rest2
    else c :: spec_resolve_escapes rest

/-! ### Helper lemmas about the search primitives -/

lemma findIdx?_some_split {α : Type} (q : α → Bool) :
    ∀ (xs : List α) (k : Nat), xs.findIdx? q = some k →
      (∀ c ∈ xs.take k, q c = false) ∧ ∃ b tl, xs.drop k = b :: tl ∧ q b = true := by
  intro xs
  induction xs with
  | nil => intro k h; simp at h
  | cons x xs ih =>
    intro k h
    rw [List.findIdx?_cons] at h
    by_cases hx : q x
    · rw [if_pos hx] at h
      cases h
      exact ⟨by simp, x, xs, rfl, hx⟩
    · rw [if_neg hx] at h
      rw [List.findIdx?_succ] at h
      cases hfi : xs.findIdx? q with
      | none => rw [hfi] at h; simp at h
      | some k2 =>
        rw [hfi] at h
        simp only [Option.map_some'] at h
        cases h
        obtain ⟨htake, b, tl, hdrop, hqb⟩ := ih k2 hfi
        refine ⟨?_, b, tl, hdrop, hqb⟩
        intro c hc
        rw [List.take_succ_cons] at hc
        rcases List.mem_cons.mp hc with rfl | hc
        · simpa using hx
        · exact htake c hc

lemma findCharFrom_eq (q : Char → Bool) (s : List Char) (i : Nat) :
    findCharFrom q s (some i) = ((s.drop i).findIdx? q).map (fun j => i + j) := rfl

lemma findCharFrom_none {q : Char → Bool} {s : List Char} {i : Nat} :
    findCharFrom q s (some i) = none ↔ ∀ c ∈ s.drop i, q c = false := by
  rw [findCharFrom_eq, Option.map_eq_none']
  exact List.findIdx?_eq_none_iff

lemma findCharFrom_some {q : Char → Bool} {s : List Char} {i j : Nat}
    (h : findCharFrom q s (some i) = some j) :
    i ≤ j ∧ (∀ c ∈ (s.drop i).take (j - i), q c = false) ∧
      ∃ b tl, s.drop j = b :: tl ∧ q b = true := by
  rw [findCharFrom_eq] at h
  cases hk : (s.drop i).findIdx? q with
  | none => rw [hk] at h; simp at h
  | some k =>
    rw [hk] at h
    simp only [Option.map_some'] at h
    cases h
    obtain ⟨htake, b, tl, hdrop, hqb⟩ := findIdx?_some_split q _ _ hk
    refine ⟨Nat.le_add_right .., ?_, b, tl, ?_, hqb⟩
    · have : i + k - i = k := by omega
      rw [this]
      exact htake
    · rw [← hdrop, List.drop_drop]

lemma lt_length_of_drop_cons {α : Type} {s : List α} {j : Nat} {b : α} {tl : List α}
    (h : s.drop j = b :: tl) : j < s.length := by
  by_contra hh
  push_neg at hh
  rw [List.drop_eq_nil_of_le hh] at h
  simp at h

lemma take_append_drop_mid {s : List Char} {l p : Nat} (h : l ≤ p) :
    (s.drop l).take (p - l) ++ s.drop p = s.drop l := by
  have h2 : s.drop p = (s.drop l).drop (p - l) := by
    rw [List.drop_drop]
    congr 1
    omega
  rw [h2, List.take_append_drop]

lemma takeWhile_dropWhile_eq_of {α : Type} {q : α → Bool} :
    ∀ (xs : List α) (k : Nat),
      (∀ c ∈ xs.take k, q c = true) →
      (∀ b tl, xs.drop k = b :: tl → q b = false) →
      xs.takeWhile q = xs.take k ∧ xs.dropWhile q = xs.drop k := by
  intro xs
  induction xs with
  | nil => intro k _ _; simp
  | cons x xs ih =>
    intro k h1 h2
    cases k with
    | zero =>
      have hx : q x = false := h2 x xs rfl
      simp [List.takeWhile_cons, List.dropWhile_cons, hx]
    | succ k2 =>
      have hx : q x = true := h1 x (by simp)
      have hrest := ih k2 (fun c hc => h1 c (by simp [hc]))
        (fun b tl hb => h2 b tl (by simpa using hb))
      simp [List.takeWhile_cons, List.dropWhile_cons, hx, hrest.1, hrest.2]

lemma dropWhile_head_false {α : Type} {q : α → Bool} {s : List α} {c : α} {rest : List α}
    (h : s.dropWhile q = c :: rest) : q c = false := by
  induction s with
  | nil => simp at h
  | cons x xs ih =>
    rw [List.dropWhile_cons] at h
    by_cases hx : q x
    · rw [if_pos hx] at h; exact ih h
    · rw [if_neg hx] at h
      cases h
      simpa using hx

lemma dropWhile_length_le {α : Type} (q : α → Bool) (s : List α) :
    (s.dropWhile q).length ≤ s.length :=
  (List.dropWhile_sublist q).length_le

/-! ### Helper lemmas about the quoted extractor -/

lemma append_escapes_eq_append (tok : List Char) (c : Char) :
    append_escapes tok c = tok ++ append_escapes [] c := by
  unfold append_escapes
  split_ifs <;> simp

lemma quoted_scan_nil (tok : List Char) : quoted_scan tok [] = (tok, []) := rfl

lemma quoted_scan_quote (tok rest : List Char) :
    quoted_scan tok ('\"' :: rest) = (tok, rest) := by
  rw [quoted_scan.eq_def]; simp

lemma quoted_scan_backslash_nil (tok : List Char) :
    quoted_scan tok ['\\'] = (tok, []) := by
  rw [quoted_scan.eq_def]; simp

lemma quoted_scan_backslash (tok : List Char) (e : Char) (rest2 : List Char) :
    quoted_scan tok ('\\' :: e :: rest2) = quoted_scan (append_escapes tok e) rest2 := by
  rw [quoted_scan.eq_def]; simp

lemma quoted_scan_other (tok rest : List Char) (c : Char) (h1 : c ≠ '\"') (h2 : c ≠ '\\') :
    quoted_scan tok (c :: rest) = quoted_scan (tok ++ [c]) rest := by
  rw [quoted_scan.eq_def]; simp [h1, h2]

lemma unterminated_backslash (e : Char) (rest2 : List Char) :
    unterminated ('\\' :: e :: rest2) = unterminated rest2 := by
  rw [unterminated.eq_def]; simp

lemma unterminated_other (c : Char) (rest : List Char) (h1 : c ≠ '\"') (h2 : c ≠ '\\') :
    unterminated (c :: rest) = unterminated rest := by
  rw [unterminated.eq_def]; simp [h1, h2]

lemma spec_resolve_escapes_backslash (e : Char) (rest2 : List Char) :
    spec_resolve_escapes ('\\' :: e :: rest2) =
      append_escapes [] e ++ spec_resolve_escapes rest2 := by
  rw [spec_resolve_escapes.eq_def]; simp

lemma spec_resolve_escapes_other (c : Char) (rest : List Char) (h : c ≠ '\\') :
    spec_resolve_escapes (c :: rest) = c :: spec_resolve_escapes rest := by
  rw [spec_resolve_escapes.eq_def]; simp [h]

lemma quoted_scan_snd_length : ∀ (tok xs : List Char),
    ((quoted_scan tok xs).2).length ≤ xs.length := by
  intro tok xs
  induction tok, xs using quoted_scan.induct with
  | case1 tok => simp [quoted_scan_nil]
  | case2 tok rest => rw [quoted_scan_quote]; simp
  | case3 tok h => rw [quoted_scan_backslash_nil]; simp
  | case4 tok e rest2 h ih =>
    rw [quoted_scan_backslash]
    simp only [List.length_cons]
    omega
  | case5 tok c rest h1 h2 ih =>
    rw [quoted_scan_other tok rest c h1 h2]
    simp only [List.length_cons]
    omega

lemma quoted_scan_of_unterminated :
    ∀ (xs : List Char), unterminated xs = true →
      ∀ tok, quoted_scan tok xs = (tok ++ spec_resolve_escapes xs, []) := by
  intro xs
  induction xs using unterminated.induct with
  | case1 => intro _ tok; simp [quoted_scan_nil, spec_resolve_escapes]
  | case2 rest =>
    intro h
    rw [unterminated.eq_def] at h
    simp at h
  | case3 h =>
    intro _ tok
    rw [quoted_scan_backslash_nil, spec_resolve_escapes.eq_def]
    simp
  | case4 e rest2 h ih =>
    intro hu tok
    have hu2 : unterminated rest2 = true := by
      rw [unterminated_backslash] at hu; exact hu
    rw [quoted_scan_backslash, spec_resolve_escapes_backslash, ih hu2,
      append_escapes_eq_append]
    simp [List.append_assoc]
  | case5 c rest h1 h2 ih =>
    intro hu tok
    have hu2 : unterminated rest = true := by
      rw [unterminated_other c rest h1 h2] at hu; exact hu
    rw [quoted_scan_other tok rest c h1 h2, spec_resolve_escapes_other c rest h2, ih hu2]
    simp

lemma extract_eq_of_dropWhile_nil {s d : List Char}
    (h : s.dropWhile (fun c => d.contains c) = []) :
    extract_token_quoted s d = (none, []) := by
  unfold extract_token_quoted
  rw [h]

lemma extract_eq_comment {s d : List Char} {c : Char} {rest : List Char}
    (h : s.dropWhile (fun c => d.contains c) = c :: rest) (hc : c = '#') :
    extract_token_quoted s d = (none, []) := by
  unfold extract_token_quoted
  rw [h]
  simp [hc]

lemma extract_eq_quote {s d rest : List Char}
    (h : s.dropWhile (fun c => d.contains c) = '\"' :: rest) :
    extract_token_quoted s d = (some (quoted_scan [] rest).1, (quoted_scan [] rest).2) := by
  unfold extract_token_quoted
  rw [h]
  simp

lemma extract_eq_plain {s d : List Char} {c : Char} {rest : List Char}
    (h : s.dropWhile (fun c => d.contains c) = c :: rest)
    (hc : c ≠ '#') (hq : c ≠ '\"') :
    extract_token_quoted s d =
      (match (c :: rest).findIdx? (fun ch => d.contains ch) with
       | none => (some (c :: rest), [])
       | some e => (some ((c :: rest).take e), (c :: rest).drop e)) := by
  unfold extract_token_quoted
  rw [h]
  simp [hc, hq]

/-- The Quoted Extractor makes strict progress on every non-empty cursor
(utils.cpp lines 126-172): the returned cursor is strictly shorter. -/
lemma extract_progress (s d : List Char) (h : s ≠ []) :
    ((extract_token_quoted s d).2).length < s.length := by
  have hslen : 0 < s.length := List.length_pos.mpr h
  cases hw : s.dropWhile (fun c => d.contains c) with
  | nil => rw [extract_eq_of_dropWhile_nil hw]; simpa using hslen
  | cons c rest =>
    have hwlen : rest.length + 1 ≤ s.length := by
      have hle := dropWhile_length_le (fun c => d.contains c) s
      rw [hw] at hle
      simpa using hle
    by_cases hc : c = '#'
    · rw [extract_eq_comment hw hc]; simpa using hslen
    · by_cases hq : c = '\"'
      · subst hq
        rw [extract_eq_quote hw]
        have hlen := quoted_scan_snd_length [] rest
        simp only []
        omega
      · rw [extract_eq_plain hw hc hq]
        cases hfi : (c :: rest).findIdx? (fun ch => d.contains ch) with
        | none => simpa using hslen
        | some e =>
          obtain ⟨htake, b, tl, hdrop, hqb⟩ := findIdx?_some_split _ _ _ hfi
          have he : e ≠ 0 := by
            intro he0
            subst he0
            rw [List.drop_zero] at hdrop
            have hcb : c = b := by
              have := congrArg (fun l => l.head?) hdrop
              simpa using this
            have hcf : d.contains c = false := dropWhile_head_false hw
            rw [hcb, hqb] at hcf
            cases hcf
          simp only [List.length_drop, List.length_cons]
          omega

/-! ### Fuel lemmas for the index-driven loops -/

lemma spacedLoop_none_none (s d : List Char) : ∀ fuel, spacedLoop s d fuel none none = [] := by
  intro fuel
  cases fuel with
  | zero => rfl
  | succ n => rw [spacedLoop.eq_def]; simp

lemma tokenizeLoop_none_none (s d : List Char) : ∀ fuel, tokenizeLoop s d fuel none none = [] := by
  intro fuel
  cases fuel with
  | zero => rfl
  | succ n => rw [tokenizeLoop.eq_def]; simp

lemma nlLoop_none_none (s d : List Char) : ∀ fuel, nlLoop s d fuel none none = [] := by
  intro fuel
  cases fuel with
  | zero => rfl
  | succ n => rw [nlLoop.eq_def]; simp

lemma tokenize_quoted_loop_succ (d : List Char) (fuel : Nat) (remaining : List Char) :
    tokenize_quoted_loop d (fuel + 1) remaining =
      if remaining = [] then []
      else
        match extract_token_quoted remaining d with
        | (some tok, rest) => tok :: tokenize_quoted_loop d fuel rest
        | (none, rest) => tokenize_quoted_loop d fuel rest := rfl

/-- With fuel at least one more than the cursor length, the fuelled
tokenize-quoted loop has stabilised: extra fuel changes nothing.  This is
the termination argument of the `while` loop in `utils::tokenize_quoted`,
powered by `extract_progress`. -/
lemma tokenize_quoted_loop_stable (d : List Char) :
    ∀ n (s : List Char), s.length < n → ∀ m,
      tokenize_quoted_loop d (n + m) s = tokenize_quoted_loop d n s := by
  intro n
  induction n with
  | zero => intro s h m; exact absurd h (Nat.not_lt_zero _)
  | succ n ih =>
    intro s h m
    have hshape : n + 1 + m = (n + m) + 1 := by omega
    rw [hshape, tokenize_quoted_loop_succ, tokenize_quoted_loop_succ]
    by_cases hs : s = []
    · rw [if_pos hs, if_pos hs]
    · rw [if_neg hs, if_neg hs]
      have hlen := extract_progress s d hs
      cases hx : extract_token_quoted s d with
      | mk tk rest =>
        rw [hx] at hlen
        simp only [Prod.snd] at hlen
        have hrest : rest.length < n := by
          have := hlen
          simp at this
          omega
        cases tk with
        | some t =>
          dsimp only
          rw [ih rest hrest m]
        | none =>
          dsimp only
          rw [ih rest hrest m]

/-! ### Step equations for the index-driven loops -/

lemma substrFromTo_none (s : List Char) (lo : Nat) : substrFromTo s lo none = s.drop lo := rfl

lemma substrFromTo_some (s : List Char) (lo h : Nat) :
    substrFromTo s lo (some h) = (s.drop lo).take (h - lo) := rfl

lemma find_first_of_at_none (s d : List Char) : find_first_of s d none = none := rfl

lemma find_first_not_of_at_none (s d : List Char) : find_first_not_of s d none = none := rfl

lemma spacedLoop_some (s d : List Char) (fuel l : Nat) (pos : Option Nat) :
    spacedLoop s d (fuel + 1) (some l) pos =
      substrFromTo s l pos ::
        ((match pos with
          | none => []
          | some p =>
            if npos_lt (some p) (find_first_not_of s d pos) then
              [substrFromTo s p (find_first_not_of s d pos)]
            else []) ++
          spacedLoop s d fuel (find_first_not_of s d pos)
            (find_first_of s d (find_first_not_of s d pos))) := rfl

lemma tokenizeLoop_some (s d : List Char) (fuel l : Nat) (pos : Option Nat) :
    tokenizeLoop s d (fuel + 1) (some l) pos =
      substrFromTo s l pos ::
        tokenizeLoop s d fuel (find_first_not_of s d pos)
          (find_first_of s d (find_first_not_of s d pos)) := rfl

lemma nlLoop_some (s d : List Char) (fuel l : Nat) (pos : Option Nat) :
    nlLoop s d (fuel + 1) (some l) pos =
      substrFromTo s l pos ::
        ((match pos, find_first_not_of s d pos with
          | some p, some l2 => List.replicate (l2 - p) ['\n']
          | _, _ => []) ++
          nlLoop s d fuel (find_first_not_of s d pos)
            (find_first_of s d (find_first_not_of s d pos))) := rfl

/-! ### The spaced tokenizer loop is lossless -/

lemma spacedLoop_flatten (s d : List Char) :
    ∀ (fuel l : Nat) (b : Char) (tl : List Char),
      s.drop l = b :: tl → d.contains b = false → s.length + 1 ≤ fuel + l →
      (spacedLoop s d fuel (some l) (find_first_of s d (some l))).flatten = s.drop l := by
  intro fuel
  induction fuel with
  | zero =>
    intro l b tl hdrop hb hfuel
    have := lt_length_of_drop_cons hdrop
    omega
  | succ fuel ih =>
    intro l b tl hdrop hb hfuel
    rw [spacedLoop_some]
    cases hpos : find_first_of s d (some l) with
    | none =>
      simp [substrFromTo_none, find_first_not_of_at_none, find_first_of_at_none,
        spacedLoop_none_none]
    | some p =>
      have hpos2 : findCharFrom (fun c => d.contains c) s (some l) = some p := hpos
      obtain ⟨hlp, htake, b2, tl2, hdrop2, hb2⟩ := findCharFrom_some hpos2
      have hplt : l < p := by
        rcases Nat.lt_or_ge l p with h | h
        · exact h
        · have hlep : l = p := by omega
          subst hlep
          rw [hdrop] at hdrop2
          cases hdrop2
          rw [hb] at hb2
          cases hb2
      cases hlp2 : find_first_not_of s d (some p) with
      | none =>
        simp [substrFromTo_some, substrFromTo_none, npos_lt, find_first_of_at_none,
          spacedLoop_none_none]
        exact take_append_drop_mid (Nat.le_of_lt hplt)
      | some l2 =>
        have hlp2b : findCharFrom (fun c => !(d.contains c)) s (some p) = some l2 := hlp2
        obtain ⟨hpl2, htake2, b3, tl3, hdrop3, hb3⟩ := findCharFrom_some hlp2b
        have hb3f : d.contains b3 = false := by simpa using hb3
        have hpl2' : p < l2 := by
          rcases Nat.lt_or_ge p l2 with h | h
          · exact h
          · have : p = l2 := by omega
            subst this
            rw [hdrop2] at hdrop3
            cases hdrop3
            rw [hb2] at hb3f
            cases hb3f
        have hl2len : l2 < s.length := lt_length_of_drop_cons hdrop3
        have hrec := ih l2 b3 tl3 hdrop3 hb3f (by omega)
        have hnp : npos_lt (some p) (some l2) = true := by
          simp [npos_lt, hpl2']
        have h1 : (s.drop p).take (l2 - p) ++ s.drop l2 = s.drop p :=
          take_append_drop_mid (Nat.le_of_lt hpl2')
        have h2 : (s.drop l).take (p - l) ++ s.drop p = s.drop l :=
          take_append_drop_mid (Nat.le_of_lt hplt)
        simp [substrFromTo_some, hnp, hrec, List.append_assoc]
        rw [h1, h2]

/-! ### The plain tokenizer agrees with the spec-side splitter -/

lemma spec_split_nil (d : List Char) : spec_split d [] = [] := by
  rw [spec_split.eq_def]

lemma spec_split_delim (d : List Char) (c : Char) (r : List Char) (h : d.contains c = true) :
    spec_split d (c :: r) = spec_split d r := by
  have h2 : c ∈ d := by simpa using h
  rw [spec_split.eq_def]
  simp [h2]

lemma spec_split_nondelim (d : List Char) (c : Char) (r : List Char) (h : d.contains c = false) :
    spec_split d (c :: r) =
      (c :: r.takeWhile (fun x => !(d.contains x))) ::
        spec_split d (r.dropWhile (fun x => !(d.contains x))) := by
  have h2 : c ∉ d := by simpa using h
  rw [spec_split.eq_def]
  simp [h2]

lemma spec_split_append_delims (d : List Char) :
    ∀ (M B : List Char), (∀ x ∈ M, d.contains x = true) →
      spec_split d (M ++ B) = spec_split d B := by
  intro M
  induction M with
  | nil => intro B _; simp
  | cons m M ih =>
    intro B h
    rw [List.cons_append, spec_split_delim d m _ (h m (by simp))]
    exact ih B (fun x hx => h x (by simp [hx]))

lemma spec_split_all_delims (d : List Char) (xs : List Char)
    (h : ∀ x ∈ xs, d.contains x = true) : spec_split d xs = [] := by
  have h2 := spec_split_append_delims d xs [] h
  simpa [spec_split_nil] using h2

lemma tokenizeLoop_eq_spec (s d : List Char) :
    ∀ (fuel l : Nat) (b : Char) (tl : List Char),
      s.drop l = b :: tl → d.contains b = false → s.length + 1 ≤ fuel + l →
      tokenizeLoop s d fuel (some l) (find_first_of s d (some l)) = spec_split d (s.drop l) := by
  intro fuel
  induction fuel with
  | zero =>
    intro l b tl hdrop hb hfuel
    have := lt_length_of_drop_cons hdrop
    omega
  | succ fuel ih =>
    intro l b tl hdrop hb hfuel
    rw [tokenizeLoop_some]
    cases hpos : find_first_of s d (some l) with
    | none =>
      have hpos2 : findCharFrom (fun c => d.contains c) s (some l) = none := hpos
      have hall := findCharFrom_none.mp hpos2
      rw [substrFromTo_none, find_first_not_of_at_none, find_first_of_at_none,
        tokenizeLoop_none_none, hdrop, spec_split_nondelim d b tl hb]
      have ht : tl.takeWhile (fun x => !(d.contains x)) = tl := by
        rw [List.takeWhile_eq_self_iff]
        intro x hx
        have hx2 : x ∈ s.drop l := by
          rw [hdrop]
          exact List.mem_cons_of_mem b hx
        simpa using hall x hx2
      have hd2 : tl.dropWhile (fun x => !(d.contains x)) = [] := by
        rw [List.dropWhile_eq_nil_iff]
        intro x hx
        have hx2 : x ∈ s.drop l := by
          rw [hdrop]
          exact List.mem_cons_of_mem b hx
        simpa using hall x hx2
      rw [ht, hd2, spec_split_nil]
    | some p =>
      have hpos2 : findCharFrom (fun c => d.contains c) s (some l) = some p := hpos
      obtain ⟨hlp, htake, b2, tl2, hdrop2, hb2⟩ := findCharFrom_some hpos2
      have hplt : l < p := by
        rcases Nat.lt_or_ge l p with h | h
        · exact h
        · have hlep : l = p := by omega
          subst hlep
          rw [hdrop] at hdrop2
          cases hdrop2
          rw [hb] at hb2
          cases hb2
      have hdd : (s.drop l).drop (p - l) = s.drop p := by
        rw [List.drop_drop]
        congr 1
        omega
      have hq1 : ∀ c ∈ (s.drop l).take (p - l), (!(d.contains c)) = true := by
        intro c hc
        simpa using htake c hc
      have hq2 : ∀ bb tll, (s.drop l).drop (p - l) = bb :: tll → (!(d.contains bb)) = false := by
        intro bb tll hbb
        rw [hdd, hdrop2] at hbb
        cases hbb
        simpa using hb2
      obtain ⟨htw, hdw⟩ := takeWhile_dropWhile_eq_of (s.drop l) (p - l) hq1 hq2
      have hbm : b ∉ d := by simpa using hb
      have h3 : b :: tl.takeWhile (fun x => !(d.contains x)) = (s.drop l).take (p - l) := by
        rw [← htw, hdrop]
        simp [List.takeWhile_cons, hbm]
      have h4 : tl.dropWhile (fun x => !(d.contains x)) = s.drop p := by
        rw [← hdd, ← hdw, hdrop]
        simp [List.dropWhile_cons, hbm]
      rw [hdrop, spec_split_nondelim d b tl hb, h3, h4, substrFromTo_some]
      congr 1
      cases hlp2 : find_first_not_of s d (some p) with
      | none =>
        have hlp2b : findCharFrom (fun c => !(d.contains c)) s (some p) = none := hlp2
        have hall2 := findCharFrom_none.mp hlp2b
        rw [find_first_of_at_none, tokenizeLoop_none_none,
          spec_split_all_delims d (s.drop p) (fun x hx => by simpa using hall2 x hx)]
      | some l2 =>
        have hlp2b : findCharFrom (fun c => !(d.contains c)) s (some p) = some l2 := hlp2
        obtain ⟨hpl2, htake2, b3, tl3, hdrop3, hb3⟩ := findCharFrom_some hlp2b
        have hb3f : d.contains b3 = false := by simpa using hb3
        have hpl2' : p < l2 := by
          rcases Nat.lt_or_ge p l2 with h | h
          · exact h
          · have : p = l2 := by omega
            subst this
            rw [hdrop2] at hdrop3
            cases hdrop3
            rw [hb2] at hb3f
            cases hb3f
        have hl2len : l2 < s.length := lt_length_of_drop_cons hdrop3
        have hrec := ih l2 b3 tl3 hdrop3 hb3f (by omega)
        rw [hrec]
        have hM : ∀ x ∈ (s.drop p).take (l2 - p), d.contains x = true := by
          intro x hx
          simpa using htake2 x hx
        have hsplit2 : (s.drop p).take (l2 - p) ++ s.drop l2 = s.drop p :=
          take_append_drop_mid (Nat.le_of_lt hpl2')
        rw [← hsplit2, spec_split_append_delims d _ _ hM]

lemma tokenize_eq_spec_split (s d : List Char) : tokenize s d = spec_split d s := by
  have hunfold : tokenize s d =
      tokenizeLoop s d (s.length + 1) (find_first_not_of s d (some 0))
        (find_first_of s d (find_first_not_of s d (some 0))) := rfl
  rw [hunfold]
  cases h0 : find_first_not_of s d (some 0) with
  | none =>
    have h0b : findCharFrom (fun c => !(d.contains c)) s (some 0) = none := h0
    have hall := findCharFrom_none.mp h0b
    rw [find_first_of_at_none, tokenizeLoop_none_none,
      spec_split_all_delims d s (fun x hx => by simpa using hall x (by simpa using hx))]
  | some l =>
    have h0b : findCharFrom (fun c => !(d.contains c)) s (some 0) = some l := h0
    obtain ⟨-, htake, b, tl, hdrop, hb⟩ := findCharFrom_some h0b
    have hbf : d.contains b = false := by simpa using hb
    have hloop := tokenizeLoop_eq_spec s d (s.length + 1) l b tl hdrop hbf (by omega)
    rw [hloop]
    have hM : ∀ x ∈ s.take l, d.contains x = true := by
      intro x hx
      have hx2 : x ∈ (s.drop 0).take (l - 0) := by simpa using hx
      have := htake x hx2
      simpa using this
    conv_rhs => rw [← List.take_append_drop l s]
    rw [spec_split_append_delims d _ _ hM]

/-! ### Claim theorems -/

/-- Claim C1: for every input string and every delimiter set, concatenating
in order all tokens returned by `tokenize_spaced` reproduces the input
exactly (lossless split). -/
theorem tokenize_spaced_lossless : ∀ s d : List Char, (tokenize_spaced s d).flatten = s := by
  intro s d
  have hunfold : tokenize_spaced s d =
      (if find_first_not_of s d (some 0) ≠ some 0
        then [substrFromTo s 0 (find_first_not_of s d (some 0))] else []) ++
      spacedLoop s d (s.length + 1) (find_first_not_of s d (some 0))
        (find_first_of s d (find_first_not_of s d (some 0))) := rfl
  rw [hunfold]
  cases h0 : find_first_not_of s d (some 0) with
  | none =>
    simp [substrFromTo_none, find_first_of_at_none, spacedLoop_none_none]
  | some l =>
    have h0b : findCharFrom (fun c => !(d.contains c)) s (some 0) = some l := h0
    obtain ⟨-, htake, b, tl, hdrop, hb⟩ := findCharFrom_some h0b
    have hbf : d.contains b = false := by simpa using hb
    have hloop := spacedLoop_flatten s d (s.length + 1) l b tl hdrop hbf (by omega)
    by_cases hl0 : l = 0
    · subst hl0
      simp [hloop]
    · simp [substrFromTo_some, hl0, hloop]

/-- Claim C3: on every non-empty cursor the Quoted Extractor leaves the
cursor strictly shorter (monotonic progress); consequently the loop of
`tokenize_quoted`, which drives the extractor until the cursor is
exhausted, terminates: with fuel `length + 1` the fuelled loop has
stabilised, and any extra fuel leaves the result unchanged. -/
theorem extract_token_quoted_progress :
    (∀ s d : List Char, s ≠ [] → ((extract_token_quoted s d).2).length < s.length) ∧
    (∀ (s d : List Char) (extra : Nat),
      tokenize_quoted_loop d (s.length + 1 + extra) s = tokenize_quoted s d) := by
  constructor
  · intro s d h
    exact extract_progress s d h
  · intro s d extra
    unfold tokenize_quoted
    exact tokenize_quoted_loop_stable d (s.length + 1) s (by omega) extra

theorem extract_token_quoted_progress_witness :
    ((extract_token_quoted ['a'] [' ']).2).length < (['a'] : List Char).length :=
  extract_token_quoted_progress.1 ['a'] [' '] (by decide)

/-- Claim C4: the Quoted Extractor returns no token exactly when, after
skipping leading delimiters, the cursor is exhausted or starts with the
comment marker `#`; whenever no token is returned the cursor is left
empty; hence `tokenize_quoted` of the empty string, of a delimiters-only
string and of a string beginning with `#` is the empty sequence. -/
theorem extract_token_quoted_none_iff :
    ∀ s d : List Char,
      ((extract_token_quoted s d).1 = none ↔
        s.dropWhile (fun c => d.contains c) = [] ∨
          (s.dropWhile (fun c => d.contains c)).head? = some '#') ∧
      ((extract_token_quoted s d).1 = none → (extract_token_quoted s d).2 = []) ∧
      tokenize_quoted [] [' '] = [] ∧
      tokenize_quoted [' ', ' ', ' '] [' '] = [] ∧
      tokenize_quoted ['#', 'c', 'o', 'm', 'm', 'e', 'n', 't'] [' '] = [] := by
  intro s d
  refine ⟨?_, ?_, by decide, by decide, by decide⟩
  · cases hw : s.dropWhile (fun c => d.contains c) with
    | nil =>
      rw [extract_eq_of_dropWhile_nil hw]
      simp
    | cons c rest =>
      by_cases hc : c = '#'
      · rw [extract_eq_comment hw hc]
        simp [hc]
      · by_cases hq : c = '\"'
        · subst hq
          rw [extract_eq_quote hw]
          simp [hc]
        · rw [extract_eq_plain hw hc hq]
          cases hfi : (c :: rest).findIdx? (fun ch => d.contains ch) with
          | none => simp [hc]
          | some e => simp [hc]
  · cases hw : s.dropWhile (fun c => d.contains c) with
    | nil =>
      rw [extract_eq_of_dropWhile_nil hw]
      intro _
      rfl
    | cons c rest =>
      by_cases hc : c = '#'
      · rw [extract_eq_comment hw hc]
        intro _
        rfl
      · by_cases hq : c = '\"'
        · subst hq
          rw [extract_eq_quote hw]
          intro hcontra
          simp at hcontra
        · rw [extract_eq_plain hw hc hq]
          cases hfi : (c :: rest).findIdx? (fun ch => d.contains ch) with
          | none => intro hcontra; simp at hcontra
          | some e => intro hcontra; simp at hcontra

theorem extract_token_quoted_none_iff_witness :
    (extract_token_quoted [' ', '#', 'x'] [' ']).2 = [] :=
  (extract_token_quoted_none_iff [' ', '#', 'x'] [' ']).2.1 (by decide)

/-- Claim C5: the Escape Resolver is total: `n`, `r`, `t`, `\"` and `\\`
expand to their C literals, the backtick keeps its escape (the
two-character sequence backslash-backtick is appended), and every other
character is appended as itself, the backslash being dropped. -/
theorem append_escapes_total_spec :
    ∀ acc : List Char,
      append_escapes acc 'n' = acc ++ ['\n'] ∧
      append_escapes acc 'r' = acc ++ ['\r'] ∧
      append_escapes acc 't' = acc ++ ['\t'] ∧
      append_escapes acc '\"' = acc ++ ['\"'] ∧
      append_escapes acc '\\' = acc ++ ['\\'] ∧
      append_escapes acc '`' = acc ++ ['\\', '`'] ∧
      ∀ c : Char, c ∉ (['n', 'r', 't', '\"', '`', '\\'] : List Char) →
        append_escapes acc c = acc ++ [c] := by
  intro acc
  refine ⟨rfl, rfl, rfl, rfl, rfl, rfl, ?_⟩
  intro c hc
  simp only [List.mem_cons, List.not_mem_nil, or_false, not_or] at hc
  obtain ⟨h1, h2, h3, h4, h5, h6⟩ := hc
  unfold append_escapes
  rw [if_neg h1, if_neg h2, if_neg h3, if_neg h4, if_neg h5, if_neg h6]

theorem append_escapes_total_spec_witness :
    append_escapes ['x'] 'q' = ['x'] ++ ['q'] :=
  (append_escapes_total_spec ['x']).2.2.2.2.2.2 'q' (by decide)

/-- Claim C6: a quoted token whose closing quote is missing is not an
error: the token is everything scanned after the opening quote with
escapes resolved, and the cursor becomes empty; in particular
`tokenize_quoted "\"abc" " " = ["abc"]`. -/
theorem extract_token_quoted_unterminated_ok :
    (∀ s d body : List Char,
      s.dropWhile (fun c => d.contains c) = '\"' :: body →
      unterminated body = true →
      extract_token_quoted s d = (some (spec_resolve_escapes body), [])) ∧
    tokenize_quoted ['\"', 'a', 'b', 'c'] [' '] = [['a', 'b', 'c']] := by
  constructor
  · intro s d body hw hu
    rw [extract_eq_quote hw, quoted_scan_of_unterminated body hu []]
    simp
  · decide

theorem extract_token_quoted_unterminated_ok_witness :
    extract_token_quoted ['\"', 'a'] [' '] = (some (spec_resolve_escapes ['a']), []) :=
  extract_token_quoted_unterminated_ok.1 ['\"', 'a'] [' '] ['a'] (by decide) (by decide)

/-- Claim C10: the Quoted Extractor can produce an empty-string token,
distinct from producing no token: two adjacent double quotes after the
delimiter skip yield `some ""`, and `tokenize_quoted "\"\"" " "` is the
one-element sequence containing the empty string. -/
theorem extract_token_quoted_empty_quotes :
    (∀ s d rest : List Char,
      s.dropWhile (fun c => d.contains c) = '\"' :: '\"' :: rest →
      (extract_token_quoted s d).1 = some [] ∧ (extract_token_quoted s d).2 = rest) ∧
    tokenize_quoted ['\"', '\"'] [' '] = [[]] := by
  constructor
  · intro s d rest hw
    rw [extract_eq_quote hw, quoted_scan_quote]
    exact ⟨rfl, rfl⟩
  · decide

theorem extract_token_quoted_empty_quotes_witness :
    (extract_token_quoted ['\"', '\"', 'x'] [' ']).1 = some [] ∧
    (extract_token_quoted ['\"', '\"', 'x'] [' ']).2 = ['x'] :=
  extract_token_quoted_empty_quotes.1 ['\"', '\"', 'x'] [' '] ['x'] (by decide)

/-- Claim C9: on the empty input line `tokenize_spaced` returns a
one-element sequence containing the empty string, not the empty sequence:
the leading-run branch fires because `find_first_not_of` returns `npos`,
which differs from `0`, and pushes `substr(0, npos)`, the empty string. -/
theorem tokenize_spaced_empty_input : ∀ d : List Char, tokenize_spaced [] d = [[]] := by
  intro d
  rfl

/-- Claim C7: the Plain Tokenizer splits on maximal runs of delimiter
characters (the spec-side splitter `spec_split`), produces no empty token
for leading or trailing delimiters, treats a quote character as ordinary
text (no case in `spec_split` inspects quotes), returns the empty sequence
on delimiters-only input, and `tokenize "  a   b " " " = ["a", "b"]`. -/
theorem tokenize_plain_split :
    (∀ s d : List Char, tokenize s d = spec_split d s) ∧
    (∀ s d : List Char, (∀ c ∈ s, d.contains c = true) → tokenize s d = []) ∧
    tokenize [' ', ' ', 'a', ' ', ' ', ' ', 'b', ' '] [' '] = [['a'], ['b']] := by
  refine ⟨tokenize_eq_spec_split, ?_, by decide⟩
  intro s d h
  rw [tokenize_eq_spec_split s d, spec_split_all_delims d s h]

theorem tokenize_plain_split_witness :
    tokenize [' '] [' '] = [] :=
  tokenize_plain_split.2.1 [' '] [' '] (by decide)

/-- Claim C8, amended: for every NON-EMPTY token `t` containing no
delimiter character and no quote character, re-tokenizing `t` with the
Plain Tokenizer returns the one-element sequence `[t]`.  (The empty token,
which the quoted tokenizer can produce, re-tokenizes to `[]` instead — see
the counterexample.) -/
theorem tokenize_single_token :
    ∀ (t d : List Char), t ≠ [] → (∀ c ∈ t, d.contains c = false) → '\"' ∉ t →
      tokenize t d = [t] := by
  intro t d hne hd hq
  rw [tokenize_eq_spec_split t d]
  cases t with
  | nil => cases hne rfl
  | cons c ts =>
    have hc : d.contains c = false := hd c (by simp)
    rw [spec_split_nondelim d c ts hc]
    have ht : ts.takeWhile (fun x => !(d.contains x)) = ts := by
      rw [List.takeWhile_eq_self_iff]
      intro x hx
      simpa using hd x (List.mem_cons_of_mem c hx)
    have hdw : ts.dropWhile (fun x => !(d.contains x)) = [] := by
      rw [List.dropWhile_eq_nil_iff]
      intro x hx
      simpa using hd x (List.mem_cons_of_mem c hx)
    rw [ht, hdw, spec_split_nil]

theorem tokenize_single_token_witness :
    tokenize ['a', 'b'] [' '] = [['a', 'b']] :=
  tokenize_single_token ['a', 'b'] [' '] (by decide) (by decide) (by decide)

/-! ### Counting the newline tokens of the newline-expansion tokenizer -/

lemma dropWhile_append_all {α : Type} {q : α → Bool} {A B : List α}
    (h : ∀ x ∈ A, q x = true) : (A ++ B).dropWhile q = B.dropWhile q := by
  induction A with
  | nil => simp
  | cons a A ih =>
    have ha : q a = true := h a (by simp)
    simp [List.dropWhile_cons, ha, ih (fun x hx => h x (by simp [hx]))]

lemma dropWhile_append_keep {α : Type} {q : α → Bool} {A B : List α}
    (h : ∃ x ∈ A, q x = false) : (A ++ B).dropWhile q = A.dropWhile q ++ B := by
  induction A with
  | nil =>
    obtain ⟨x, hx, _⟩ := h
    simp at hx
  | cons a A ih =>
    by_cases ha : q a = true
    · obtain ⟨x, hx, hqx⟩ := h
      have hxA : x ∈ A := by
        rcases List.mem_cons.mp hx with rfl | h2
        · rw [ha] at hqx; cases hqx
        · exact h2
      simp [List.dropWhile_cons, ha, ih ⟨x, hxA, hqx⟩]
    · have ha2 : q a = false := by
        cases hqa : q a
        · rfl
        · cases ha hqa
      simp [List.dropWhile_cons, ha2]

lemma rdropWhile_append_all (q : Char → Bool) {A B : List Char}
    (h : ∀ x ∈ B, q x = true) : (A ++ B).rdropWhile q = A.rdropWhile q := by
  simp only [List.rdropWhile, List.reverse_append]
  rw [dropWhile_append_all (fun x hx => h x (List.mem_reverse.mp hx))]

lemma rdropWhile_append_keep (q : Char → Bool) {A B : List Char}
    (h : ∃ x ∈ B, q x = false) : (A ++ B).rdropWhile q = A ++ B.rdropWhile q := by
  obtain ⟨x, hx, hqx⟩ := h
  simp only [List.rdropWhile, List.reverse_append]
  rw [dropWhile_append_keep ⟨x, List.mem_reverse.mpr hx, hqx⟩]
  simp

lemma countP_rdropWhile_zero (q : Char → Bool) {A : List Char}
    (h : ∀ x ∈ A, q x = false) : (A.rdropWhile q).countP q = 0 := by
  rw [List.countP_eq_zero]
  intro x hx
  have hxA : x ∈ A := by
    simp only [List.rdropWhile] at hx
    have hx2 := List.mem_reverse.mp hx
    have hx3 := (List.dropWhile_subset q) hx2
    exact List.mem_reverse.mp hx3
  simp [h x hxA]

lemma nlLoop_count (s d : List Char) (hnl : d.contains '\n' = true) :
    ∀ (fuel l : Nat) (b : Char) (tl : List Char),
      s.drop l = b :: tl → d.contains b = false → s.length + 1 ≤ fuel + l →
      (nlLoop s d fuel (some l) (find_first_of s d (some l))).count ['\n'] =
        ((s.drop l).rdropWhile (fun c => d.contains c)).countP (fun c => d.contains c) := by
  intro fuel
  induction fuel with
  | zero =>
    intro l b tl hdrop hb hfuel
    have := lt_length_of_drop_cons hdrop
    omega
  | succ fuel ih =>
    intro l b tl hdrop hb hfuel
    rw [nlLoop_some]
    cases hpos : find_first_of s d (some l) with
    | none =>
      have hpos2 : findCharFrom (fun c => d.contains c) s (some l) = none := hpos
      have hall := findCharFrom_none.mp hpos2
      have htokne : (['\n'] : List Char) ≠ s.drop l := by
        intro hcontra
        have hmem : '\n' ∈ s.drop l := by rw [← hcontra]; simp
        have hf := hall '\n' hmem
        rw [hnl] at hf
        cases hf
      rw [substrFromTo_none, find_first_not_of_at_none, find_first_of_at_none, nlLoop_none_none,
        countP_rdropWhile_zero (fun c => d.contains c) hall]
      simp [List.count_cons, htokne]
    | some p =>
      have hpos2 : findCharFrom (fun c => d.contains c) s (some l) = some p := hpos
      obtain ⟨hlp, htake, b2, tl2, hdrop2, hb2⟩ := findCharFrom_some hpos2
      have hplt : l < p := by
        rcases Nat.lt_or_ge l p with h | h
        · exact h
        · have hlep : l = p := by omega
          subst hlep
          rw [hdrop] at hdrop2
          cases hdrop2
          rw [hb] at hb2
          cases hb2
      have htokne : (['\n'] : List Char) ≠ (s.drop l).take (p - l) := by
        intro hcontra
        have hmem : '\n' ∈ (s.drop l).take (p - l) := by rw [← hcontra]; simp
        have hf := htake '\n' hmem
        rw [hnl] at hf
        cases hf
      have hsplitAB : (s.drop l).take (p - l) ++ s.drop p = s.drop l :=
        take_append_drop_mid (Nat.le_of_lt hplt)
      cases hlp2 : find_first_not_of s d (some p) with
      | none =>
        have hlp2b : findCharFrom (fun c => !(d.contains c)) s (some p) = none := hlp2
        have hall2 := findCharFrom_none.mp hlp2b
        have hallB : ∀ x ∈ s.drop p, d.contains x = true := by
          intro x hx
          have := hall2 x hx
          simpa using this
        have hRHS : ((s.drop l).rdropWhile (fun c => d.contains c)).countP
            (fun c => d.contains c) = 0 := by
          rw [← hsplitAB, rdropWhile_append_all (fun c => d.contains c) hallB]
          exact countP_rdropWhile_zero (fun c => d.contains c) htake
        rw [substrFromTo_some, find_first_of_at_none, nlLoop_none_none, hRHS]
        simp [List.count_cons, htokne]
      | some l2 =>
        have hlp2b : findCharFrom (fun c => !(d.contains c)) s (some p) = some l2 := hlp2
        obtain ⟨hpl2, htake2, b3, tl3, hdrop3, hb3⟩ := findCharFrom_some hlp2b
        have hb3f : d.contains b3 = false := by simpa using hb3
        have hpl2' : p < l2 := by
          rcases Nat.lt_or_ge p l2 with h | h
          · exact h
          · have : p = l2 := by omega
            subst this
            rw [hdrop2] at hdrop3
            cases hdrop3
            rw [hb2] at hb3f
            cases hb3f
        have hl2len : l2 < s.length := lt_length_of_drop_cons hdrop3
        have hrec := ih l2 b3 tl3 hdrop3 hb3f (by omega)
        have hsplitPM : (s.drop p).take (l2 - p) ++ s.drop l2 = s.drop p :=
          take_append_drop_mid (Nat.le_of_lt hpl2')
        have hMall : ∀ x ∈ (s.drop p).take (l2 - p), d.contains x = true := by
          intro x hx
          simpa using htake2 x hx
        have hkeepD : ∃ x ∈ s.drop l2, d.contains x = false :=
          ⟨b3, by rw [hdrop3]; simp, hb3f⟩
        have hMlen : ((s.drop p).take (l2 - p)).length = l2 - p := by
          simp [List.length_take, List.length_drop]
          omega
        have hRHS : ((s.drop l).rdropWhile (fun c => d.contains c)).countP
              (fun c => d.contains c) =
            (l2 - p) +
              ((s.drop l2).rdropWhile (fun c => d.contains c)).countP
                (fun c => d.contains c) := by
          rw [← hsplitAB, ← hsplitPM]
          have hkeepMD : ∃ x ∈ (s.drop p).take (l2 - p) ++ s.drop l2, d.contains x = false := by
            obtain ⟨x, hx, hqx⟩ := hkeepD
            exact ⟨x, List.mem_append_right _ hx, hqx⟩
          rw [rdropWhile_append_keep (fun c => d.contains c) hkeepMD, rdropWhile_append_keep (fun c => d.contains c) hkeepD,
            List.countP_append, List.countP_append]
          have hA0 : ((s.drop l).take (p - l)).countP (fun c => d.contains c) = 0 :=
            List.countP_eq_zero.mpr (fun a ha => by simpa using htake a ha)
          have hM : ((s.drop p).take (l2 - p)).countP (fun c => d.contains c) =
              ((s.drop p).take (l2 - p)).length :=
            List.countP_eq_length.mpr (fun a ha => by simpa using hMall a ha)
          rw [hA0, hM, hMlen]
          omega
        rw [substrFromTo_some, hRHS]
        dsimp only
        rw [List.count_cons_of_ne htokne, List.count_append, List.count_replicate_self, hrec]

/-- Claim C2, counterexample: on input `"a "` with delimiter set `" "` the
code returns no newline token at all (the trailing delimiter run emits
nothing), while the input contains one delimiter character. -/
theorem tokenize_nl_newline_count_counterexample :
    ¬ ((tokenize_nl ['a', ' '] [' ']).count ['\n'] =
        (['a', ' '] : List Char).countP (fun c => ([' '] : List Char).contains c)) := by
  decide

/-- Claim C2, amended: when the newline character itself belongs to the
delimiter set, the number of single-newline tokens returned by
`tokenize_nl` equals the number of delimiter characters of `s` that are
NOT part of the maximal trailing delimiter run (the trailing run emits no
newline tokens); when `s` consists only of delimiter characters, every
character contributes one newline token. -/
theorem tokenize_nl_newline_count :
    ∀ s d : List Char, d.contains '\n' = true →
      (tokenize_nl s d).count ['\n'] =
        if s.dropWhile (fun c => d.contains c) = [] then s.length
        else (s.rdropWhile (fun c => d.contains c)).countP (fun c => d.contains c) := by
  intro s d hnl
  have hunfold : tokenize_nl s d =
      (match find_first_not_of s d (some 0) with
        | some lp => List.replicate lp ['\n']
        | none => List.replicate s.length ['\n']) ++
      nlLoop s d (s.length + 1) (find_first_not_of s d (some 0))
        (find_first_of s d (find_first_not_of s d (some 0))) := rfl
  rw [hunfold]
  cases h0 : find_first_not_of s d (some 0) with
  | none =>
    have h0b : findCharFrom (fun c => !(d.contains c)) s (some 0) = none := h0
    have hall := findCharFrom_none.mp h0b
    have hdw : s.dropWhile (fun c => d.contains c) = [] := by
      rw [List.dropWhile_eq_nil_iff]
      intro x hx
      have hq := hall x (by simpa using hx)
      simpa using hq
    rw [if_pos hdw, find_first_of_at_none, nlLoop_none_none]
    simp
  | some l =>
    have h0b : findCharFrom (fun c => !(d.contains c)) s (some 0) = some l := h0
    obtain ⟨-, htake, b, tl, hdrop, hb⟩ := findCharFrom_some h0b
    have hbf : d.contains b = false := by simpa using hb
    have hllen : l < s.length := lt_length_of_drop_cons hdrop
    have hqt : ∀ c ∈ s.take l, d.contains c = true := by
      intro c hc
      have hc2 : c ∈ (s.drop 0).take (l - 0) := by simpa using hc
      have := htake c hc2
      simpa using this
    have hq2 : ∀ bb tll, s.drop l = bb :: tll → (fun c => d.contains c) bb = false := by
      intro bb tll hbb
      rw [hdrop] at hbb
      cases hbb
      exact hbf
    have hq1 : ∀ c ∈ s.take l, (fun c => d.contains c) c = true := hqt
    obtain ⟨-, hdws⟩ := takeWhile_dropWhile_eq_of s l hq1 hq2
    have hdwne : s.dropWhile (fun c => d.contains c) ≠ [] := by
      rw [hdws, hdrop]
      simp
    rw [if_neg hdwne]
    have hloop := nlLoop_count s d hnl (s.length + 1) l b tl hdrop hbf (by omega)
    rw [List.count_append, List.count_replicate_self, hloop]
    have hkeep : ∃ x ∈ s.drop l, d.contains x = false := ⟨b, by rw [hdrop]; simp, hbf⟩
    have hRHS : (s.rdropWhile (fun c => d.contains c)).countP (fun c => d.contains c)
        = l + ((s.drop l).rdropWhile (fun c => d.contains c)).countP
            (fun c => d.contains c) := by
      conv_lhs => rw [← List.take_append_drop l s]
      rw [rdropWhile_append_keep (fun c => d.contains c) hkeep, List.countP_append]
      have htl : (s.take l).countP (fun c => d.contains c) = (s.take l).length :=
        List.countP_eq_length.mpr (fun a ha => by simpa using hqt a ha)
      have htl2 : (s.take l).length = l := by
        rw [List.length_take]
        omega
      rw [htl, htl2]
    rw [hRHS]

theorem tokenize_nl_newline_count_witness :
    (tokenize_nl [' ', 'a', ' ', ' ', 'b', ' '] ['\n', ' ']).count ['\n'] =
      if ([' ', 'a', ' ', ' ', 'b', ' '] : List Char).dropWhile
          (fun c => (['\n', ' '] : List Char).contains c) = []
      then ([' ', 'a', ' ', ' ', 'b', ' '] : List Char).length
      else (([' ', 'a', ' ', ' ', 'b', ' '] : List Char).rdropWhile
          (fun c => (['\n', ' '] : List Char).contains c)).countP
          (fun c => (['\n', ' '] : List Char).contains c) :=
  tokenize_nl_newline_count [' ', 'a', ' ', ' ', 'b', ' '] ['\n', ' '] (by decide)

/-- Claim C8, counterexample: the empty string contains no delimiter and
no quote character, yet re-tokenizing it returns the empty sequence, not
the one-element sequence containing the empty token. -/
theorem tokenize_idempotence_counterexample :
    (∀ c ∈ ([] : List Char), ([' '] : List Char).contains c = false) ∧
    '\"' ∉ ([] : List Char) ∧
    tokenize [] [' '] ≠ [([] : List Char)] := by
  decide

end Newsboat
